import Mathlib

/-!
Verification of the error-handling-rs rendering engine.

This file gives a shallow embedding of the line-prefixing writer
(`src/types/prefixer.rs`), the error-trace formatter
(`src/functions/writeln_error.rs`), the aggregate renderer
(`src/types/err_vec.rs`), the outcome mappers
(`src/functions/exit_result.rs`), the report sink
(`writeln_error_to_writer_and_file`) and `partition_result`, and proves
the spec claims about them.
-/

set_option maxHeartbeats 1000000

namespace ErrorHandling

/-! ## Bytes and newline -/

abbrev Byte := Nat

/-- The byte value of a line feed, `b'\x5Cn'` in the Rust source. -/
def NL : Byte := 10

/-! ## Splitting a buffer at the first newline.

`Prefixer::write` computes `buf[start..].iter().position(|&b| b == b'\x5Cn')`
and slices `buf[start..start + idx + 1]`.  `splitLine` returns that
inclusive slice together with the remainder after it (`some rest`), or the
whole buffer with `none` when no newline occurs. -/

def splitLine : List Byte → List Byte × Option (List Byte)
  | [] => ([], none)
  | b :: rest =>
    if b = NL then ([NL], some rest)
    else (b :: (splitLine rest).1, (splitLine rest).2)

theorem splitLine_some_length : ∀ (l c r : List Byte), splitLine l = (c, some r) → r.length < l.length := by
  intro l
  induction l with
  | nil => intro c r h; simp [splitLine] at h
  | cons b bs ih =>
    intro c r h
    rcases hsp : splitLine bs with ⟨c', o⟩
    rw [splitLine, hsp] at h
    by_cases hb : b = NL
    · rw [if_pos hb] at h
      obtain ⟨h1, h2⟩ := Prod.mk.injEq .. ▸ h
      obtain rfl : bs = r := Option.some.inj h2
      simp
    · rw [if_neg hb] at h
      obtain ⟨h1, h2⟩ := Prod.mk.injEq .. ▸ h
      simp only at h1 h2
      subst h2
      have := ih c' r hsp
      simp only [List.length_cons]
      omega

theorem splitLine_none : ∀ (l c : List Byte), splitLine l = (c, none) → c = l ∧ NL ∉ l := by
  intro l
  induction l with
  | nil =>
    intro c h
    rw [splitLine] at h
    obtain ⟨h1, h2⟩ := Prod.mk.injEq .. ▸ h
    simp [← h1]
  | cons b bs ih =>
    intro c h
    rcases hsp : splitLine bs with ⟨c', o⟩
    rw [splitLine, hsp] at h
    by_cases hb : b = NL
    · rw [if_pos hb] at h
      obtain ⟨h1, h2⟩ := Prod.mk.injEq .. ▸ h
      exact absurd h2 (by simp)
    · rw [if_neg hb] at h
      obtain ⟨h1, h2⟩ := Prod.mk.injEq .. ▸ h
      simp only at h1 h2
      subst h2
      obtain ⟨hc, hmem⟩ := ih c' hsp
      subst hc
      refine ⟨h1.symm, ?_⟩
      intro hm
      rcases List.mem_cons.mp hm with h | h
      · exact hb h.symm
      · exact hmem h

theorem splitLine_append_some : ∀ (a b c r : List Byte), splitLine a = (c, some r) →
    splitLine (a ++ b) = (c, some (r ++ b)) := by
  intro a
  induction a with
  | nil => intro b c r h; simp [splitLine] at h
  | cons x xs ih =>
    intro b c r h
    rcases hsp : splitLine xs with ⟨c', o⟩
    rw [splitLine, hsp] at h
    by_cases hx : x = NL
    · rw [if_pos hx] at h
      obtain ⟨h1, h2⟩ := Prod.mk.injEq .. ▸ h
      obtain rfl : xs = r := Option.some.inj h2
      subst hx
      rw [List.cons_append, splitLine, if_pos rfl, ← h1]
    · rw [if_neg hx] at h
      obtain ⟨h1, h2⟩ := Prod.mk.injEq .. ▸ h
      simp only at h1 h2
      subst h2
      have hrec := ih b c' r hsp
      rw [List.cons_append, splitLine, hrec, if_neg hx, ← h1]

theorem splitLine_append_none : ∀ (a b c : List Byte), splitLine a = (c, none) →
    splitLine (a ++ b) = (c ++ (splitLine b).1, (splitLine b).2) := by
  intro a
  induction a with
  | nil =>
    intro b c h
    rw [splitLine] at h
    obtain ⟨h1, h2⟩ := Prod.mk.injEq .. ▸ h
    simp [← h1]
  | cons x xs ih =>
    intro b c h
    rcases hsp : splitLine xs with ⟨c', o⟩
    rw [splitLine, hsp] at h
    by_cases hx : x = NL
    · rw [if_pos hx] at h
      obtain ⟨h1, h2⟩ := Prod.mk.injEq .. ▸ h
      exact absurd h2 (by simp)
    · rw [if_neg hx] at h
      obtain ⟨h1, h2⟩ := Prod.mk.injEq .. ▸ h
      simp only at h1 h2
      subst h2
      have hrec := ih b c' hsp
      rw [List.cons_append, splitLine, hrec, if_neg hx, ← h1]
      simp


/-! ## The `Prefixer` writer (src/types/prefixer.rs)

Fields mirror the Rust struct; prefixes are kept as byte lists
(`prefix.as_bytes()`).  The wrapped `dyn Write` sink is modelled by an
oracle `Sink.err` deciding, per `write_all` call (counted by
`SinkState.calls`), whether the call fails and with which error; a
successful call appends its chunk to `SinkState.out`. -/

structure Prefixer where
  first_line_pref : List Byte
  next_line_pref : List Byte
  is_first_line : Bool
  needs_pref : Bool
deriving DecidableEq, Repr

/-- `Prefixer::new`: both state flags start `true`. -/
def Prefixer.new (fp np : List Byte) : Prefixer :=
  { first_line_pref := fp, next_line_pref := np, is_first_line := true, needs_pref := true }

structure Sink (ε : Type) where
  err : Nat → Option ε

/-- A sink whose `write_all` never fails. -/
def okSink (ε : Type) : Sink ε := ⟨fun _ => none⟩

structure SinkState where
  calls : Nat
  out : List Byte
deriving DecidableEq, Repr

/-- One `writer.write_all(chunk)` call against the modelled sink. -/
def writeAll (s : Sink ε) (st : SinkState) (chunk : List Byte) : Except ε SinkState :=
  match s.err st.calls with
  | some e => .error e
  | none => .ok ⟨st.calls + 1, st.out ++ chunk⟩

/-- The prefix selected by `if self.is_first_line { &self.first_line_prefix } else { &self.next_line_prefix }`. -/
def prefOf (p : Prefixer) : List Byte :=
  if p.is_first_line then p.first_line_pref else p.next_line_pref

/-- The state update `self.is_first_line = false; self.needs_prefix = false;`. -/
def clearFlags (p : Prefixer) : Prefixer :=
  { p with is_first_line := false, needs_pref := false }

/-- The state update `self.needs_prefix = true;`. -/
def setNeeds (p : Prefixer) : Prefixer :=
  { p with needs_pref := true }

/-- The `if self.needs_prefix { self.writer.write_all(prefix)?; ... }` step
at the top of the loop body of `Prefixer::write`. -/
def writePre (s : Sink ε) (p : Prefixer) (st : SinkState) : Except ε (Prefixer × SinkState) :=
  if p.needs_pref then
    match writeAll s st (prefOf p) with
    | .error e => .error e
    | .ok st1 => .ok (clearFlags p, st1)
  else .ok (p, st)

/-- The `while start < buf.len()` loop of `Prefixer::write`, by recursion on
the remaining suffix `buf[start..]`.  A `?` failure returns the error
together with the `Prefixer` and sink state exactly as they stood at that
point. -/
def writeLoop (s : Sink ε) (p : Prefixer) (st : SinkState) (buf : List Byte) :
    Except ε Unit × Prefixer × SinkState :=
  match buf with
  | [] => (.ok (), p, st)
  | b :: bs =>
    match writePre s p st with
    | .error e => (.error e, p, st)
    | .ok (p1, st1) =>
      match h : splitLine (b :: bs) with
      | (chunk, some rest) =>
        match writeAll s st1 chunk with
        | .error e => (.error e, p1, st1)
        | .ok st2 => writeLoop s (setNeeds p1) st2 rest
      | (chunk, none) =>
        match writeAll s st1 chunk with
        | .error e => (.error e, p1, st1)
        | .ok st2 => (.ok (), p1, st2)
termination_by buf.length
decreasing_by
  have hlen := splitLine_some_length _ _ _ h
  simp only [List.length_cons] at hlen ⊢
  omega

/-- `Prefixer::write`: the empty-buffer early return `Ok(0)`, then the loop,
then `Ok(buf.len())`. -/
def writeP (s : Sink ε) (p : Prefixer) (st : SinkState) (buf : List Byte) :
    Except ε Nat × Prefixer × SinkState :=
  if buf.isEmpty then (.ok 0, p, st)
  else
    match writeLoop s p st buf with
    | (.ok (), p', st') => (.ok buf.length, p', st')
    | (.error e, p', st') => (.error e, p', st')

/-- A sequence of `write` calls, aborting at the first failing call. -/
def writeMany (s : Sink ε) (p : Prefixer) (st : SinkState) : List (List Byte) →
    Except ε Unit × Prefixer × SinkState
  | [] => (.ok (), p, st)
  | c :: cs =>
    match writeP s p st c with
    | (.ok _, p', st') => writeMany s p' st' cs
    | (.error e, p', st') => (.error e, p', st')

/-! ## The pure call plan of a `write`.

Because `Prefixer::write` consults the sink only for success/failure, the
sequence of `write_all` calls it attempts — each with the `Prefixer` state
as it stands right before that call, and the chunk passed — is a pure
function of the `Prefixer` state and the buffer.  `plan` computes that call
list together with the final `Prefixer` state of a fully successful run. -/

/-- The prefix-step calls of one loop iteration: one `write_all` with the
selected prefix when `needs_prefix` is set, none otherwise. -/
def planPre (p : Prefixer) : List (Prefixer × List Byte) :=
  if p.needs_pref then [(p, prefOf p)] else []

/-- The `Prefixer` state after the prefix step of one loop iteration. -/
def planP1 (p : Prefixer) : Prefixer :=
  if p.needs_pref then clearFlags p else p

def plan (p : Prefixer) (buf : List Byte) : List (Prefixer × List Byte) × Prefixer :=
  match buf with
  | [] => ([], p)
  | b :: bs =>
    match h : splitLine (b :: bs) with
    | (chunk, some rest) =>
      let r := plan (setNeeds (planP1 p)) rest
      (planPre p ++ (planP1 p, chunk) :: r.1, r.2)
    | (chunk, none) => (planPre p ++ [(planP1 p, chunk)], planP1 p)
termination_by buf.length
decreasing_by
  have hlen := splitLine_some_length _ _ _ h
  simp only [List.length_cons] at hlen ⊢
  omega

/-- The chunks a successful `write` sends to the sink, in order. -/
def chunksOf (p : Prefixer) (buf : List Byte) : List (List Byte) :=
  (plan p buf).1.map (fun x => x.2)

/-- The bytes a successful `write` appends to the sink output. -/
def outP (p : Prefixer) (buf : List Byte) : List Byte :=
  (chunksOf p buf).flatten

/-- The `Prefixer` state after a successful `write`. -/
def runP (p : Prefixer) (buf : List Byte) : Prefixer :=
  (plan p buf).2

/-! ### Unfolding lemmas -/

theorem plan_nil (p : Prefixer) : plan p [] = ([], p) := by
  rw [plan]

theorem plan_cons_some (p : Prefixer) (b : Byte) (bs chunk rest : List Byte)
    (h : splitLine (b :: bs) = (chunk, some rest)) :
    plan p (b :: bs) =
      (planPre p ++ (planP1 p, chunk) :: (plan (setNeeds (planP1 p)) rest).1,
        (plan (setNeeds (planP1 p)) rest).2) := by
  rw [plan]
  split
  · rename_i chunk' rest' heq
    rw [h] at heq
    obtain ⟨h1, h2⟩ := Prod.mk.injEq .. ▸ heq
    obtain rfl : rest = rest' := Option.some.inj h2
    rw [h1]
  · rename_i chunk' heq
    rw [h] at heq
    obtain ⟨h1, h2⟩ := Prod.mk.injEq .. ▸ heq
    exact absurd h2 (by simp)

theorem plan_cons_none (p : Prefixer) (b : Byte) (bs chunk : List Byte)
    (h : splitLine (b :: bs) = (chunk, none)) :
    plan p (b :: bs) = (planPre p ++ [(planP1 p, chunk)], planP1 p) := by
  rw [plan]
  split
  · rename_i chunk' rest' heq
    rw [h] at heq
    obtain ⟨h1, h2⟩ := Prod.mk.injEq .. ▸ heq
    exact absurd h2 (by simp)
  · rename_i chunk' heq
    rw [h] at heq
    obtain ⟨h1, h2⟩ := Prod.mk.injEq .. ▸ heq
    rw [h1]

theorem writeLoop_nil (s : Sink ε) (p : Prefixer) (st : SinkState) :
    writeLoop s p st [] = (.ok (), p, st) := by
  rw [writeLoop]

theorem writeLoop_cons_some (s : Sink ε) (p : Prefixer) (st : SinkState) (b : Byte)
    (bs chunk rest : List Byte) (h : splitLine (b :: bs) = (chunk, some rest)) :
    writeLoop s p st (b :: bs) =
      match writePre s p st with
      | .error e => (.error e, p, st)
      | .ok (p1, st1) =>
        match writeAll s st1 chunk with
        | .error e => (.error e, p1, st1)
        | .ok st2 => writeLoop s (setNeeds p1) st2 rest := by
  rw [writeLoop]
  rcases writePre s p st with e | ⟨p1, st1⟩
  · rfl
  · simp only
    split
    · rename_i chunk' rest' heq
      rw [h] at heq
      obtain ⟨h1, h2⟩ := Prod.mk.injEq .. ▸ heq
      obtain rfl : rest = rest' := Option.some.inj h2
      rw [h1]
    · rename_i chunk' heq
      rw [h] at heq
      obtain ⟨h1, h2⟩ := Prod.mk.injEq .. ▸ heq
      exact absurd h2 (by simp)

theorem writeLoop_cons_none (s : Sink ε) (p : Prefixer) (st : SinkState) (b : Byte)
    (bs chunk : List Byte) (h : splitLine (b :: bs) = (chunk, none)) :
    writeLoop s p st (b :: bs) =
      match writePre s p st with
      | .error e => (.error e, p, st)
      | .ok (p1, st1) =>
        match writeAll s st1 chunk with
        | .error e => (.error e, p1, st1)
        | .ok st2 => (.ok (), p1, st2) := by
  rw [writeLoop]
  rcases writePre s p st with e | ⟨p1, st1⟩
  · rfl
  · simp only
    split
    · rename_i chunk' rest' heq
      rw [h] at heq
      obtain ⟨h1, h2⟩ := Prod.mk.injEq .. ▸ heq
      exact absurd h2 (by simp)
    · rename_i chunk' heq
      rw [h] at heq
      obtain ⟨h1, h2⟩ := Prod.mk.injEq .. ▸ heq
      rw [h1]

/-! ### A fully successful `write` realises the plan -/

theorem writeAll_okSink (ε : Type) (st : SinkState) (chunk : List Byte) :
    writeAll (okSink ε) st chunk = .ok ⟨st.calls + 1, st.out ++ chunk⟩ := rfl

theorem writeLoop_okSink (ε : Type) : ∀ (n : Nat) (buf : List Byte), buf.length ≤ n →
    ∀ (p : Prefixer) (st : SinkState),
    writeLoop (okSink ε) p st buf =
      (.ok (), runP p buf, ⟨st.calls + (plan p buf).1.length, st.out ++ outP p buf⟩) := by
  intro n
  induction n with
  | zero =>
    intro buf hb p st
    have hbuf : buf = [] := List.length_eq_zero.mp (Nat.le_zero.mp hb)
    subst hbuf
    simp [writeLoop_nil, plan_nil, runP, outP, chunksOf]
  | succ n ih =>
    intro buf hb p st
    match buf with
    | [] => simp [writeLoop_nil, plan_nil, runP, outP, chunksOf]
    | b :: bs =>
      rcases hsp : splitLine (b :: bs) with ⟨chunk, o⟩
      cases o with
      | some rest =>
        have hlen : rest.length ≤ n := by
          have := splitLine_some_length _ _ _ hsp
          simp only [List.length_cons] at this hb
          omega
        rw [writeLoop_cons_some _ _ _ _ _ _ _ hsp]
        simp only [runP, outP, chunksOf, plan_cons_some _ _ _ _ _ hsp]
        by_cases hnp : p.needs_pref
        · simp only [writePre, writeAll_okSink, hnp, if_true, planPre, planP1]
          rw [ih rest hlen]
          simp only [runP, outP, chunksOf, Prod.mk.injEq, SinkState.mk.injEq,
            List.map_append, List.map_cons, List.map_nil, List.flatten_append,
            List.flatten_cons, List.flatten_nil, List.length_append, List.length_cons,
            List.length_map, List.length_nil, List.append_assoc, List.nil_append,
            List.append_nil]
          all_goals and_intros
          all_goals first | rfl | omega | simp [List.append_assoc]
        · simp only [writePre, writeAll_okSink, hnp, if_false, Bool.false_eq_true,
            planPre, planP1]
          rw [ih rest hlen]
          simp only [runP, outP, chunksOf, Prod.mk.injEq, SinkState.mk.injEq,
            List.map_append, List.map_cons, List.map_nil, List.flatten_append,
            List.flatten_cons, List.flatten_nil, List.length_append, List.length_cons,
            List.length_map, List.length_nil, List.append_assoc, List.nil_append,
            List.append_nil]
          all_goals and_intros
          all_goals first | rfl | omega | simp [List.append_assoc]
      | none =>
        rw [writeLoop_cons_none _ _ _ _ _ _ hsp]
        simp only [runP, outP, chunksOf, plan_cons_none _ _ _ _ hsp]
        by_cases hnp : p.needs_pref
        · simp only [writePre, writeAll_okSink, hnp, if_true, planPre, planP1,
            Prod.mk.injEq, SinkState.mk.injEq, List.map_append, List.map_cons,
            List.map_nil, List.flatten_append, List.flatten_cons, List.flatten_nil,
            List.length_append, List.length_cons, List.length_map, List.length_nil,
            List.append_assoc, List.nil_append, List.append_nil]
          all_goals and_intros
          all_goals first | rfl | omega | simp [List.append_assoc]
        · simp only [writePre, writeAll_okSink, hnp, if_false, Bool.false_eq_true,
            planPre, planP1, Prod.mk.injEq, SinkState.mk.injEq, List.map_append,
            List.map_cons, List.map_nil, List.flatten_append, List.flatten_cons,
            List.flatten_nil, List.length_append, List.length_cons, List.length_map,
            List.length_nil, List.append_assoc, List.nil_append, List.append_nil]
          all_goals and_intros
          all_goals first | rfl | omega | simp [List.append_assoc]

/-! ### Composition of plans over concatenated buffers -/

theorem planP1_needs (p : Prefixer) : (planP1 p).needs_pref = false := by
  by_cases hnp : p.needs_pref
  · simp [planP1, clearFlags, hnp]
  · simp [planP1, hnp]

theorem planPre_of_needs_false (p : Prefixer) (h : p.needs_pref = false) : planPre p = [] := by
  simp [planPre, h]

theorem planP1_of_needs_false (p : Prefixer) (h : p.needs_pref = false) : planP1 p = p := by
  simp [planP1, h]

/-- The bytes sent by the prefix step of one loop iteration. -/
def preBytes (p : Prefixer) : List Byte :=
  if p.needs_pref then prefOf p else []

theorem preBytes_planP1 (p : Prefixer) : preBytes (planP1 p) = [] := by
  simp [preBytes, planP1_needs]

theorem preBytes_flatten (p : Prefixer) :
    ((planPre p).map (fun x => x.2)).flatten = preBytes p := by
  by_cases hnp : p.needs_pref <;> simp [planPre, preBytes, hnp]

theorem outP_nil (p : Prefixer) : outP p [] = [] := by
  simp [outP, chunksOf, plan_nil]

theorem runP_nil (p : Prefixer) : runP p [] = p := by
  simp [runP, plan_nil]

theorem outP_cons_some (p : Prefixer) (b : Byte) (bs chunk rest : List Byte)
    (h : splitLine (b :: bs) = (chunk, some rest)) :
    outP p (b :: bs) = preBytes p ++ chunk ++ outP (setNeeds (planP1 p)) rest := by
  simp [outP, chunksOf, plan_cons_some _ _ _ _ _ h, preBytes_flatten, List.append_assoc]

theorem outP_cons_none (p : Prefixer) (b : Byte) (bs chunk : List Byte)
    (h : splitLine (b :: bs) = (chunk, none)) :
    outP p (b :: bs) = preBytes p ++ chunk := by
  simp [outP, chunksOf, plan_cons_none _ _ _ _ h, preBytes_flatten]

theorem runP_cons_some (p : Prefixer) (b : Byte) (bs chunk rest : List Byte)
    (h : splitLine (b :: bs) = (chunk, some rest)) :
    runP p (b :: bs) = runP (setNeeds (planP1 p)) rest := by
  simp [runP, plan_cons_some _ _ _ _ _ h]

theorem runP_cons_none (p : Prefixer) (b : Byte) (bs chunk : List Byte)
    (h : splitLine (b :: bs) = (chunk, none)) :
    runP p (b :: bs) = planP1 p := by
  simp [runP, plan_cons_none _ _ _ _ h]

theorem plan_append : ∀ (n : Nat) (a : List Byte), a.length ≤ n → ∀ (b : List Byte) (p : Prefixer),
    outP p (a ++ b) = outP p a ++ outP (runP p a) b ∧ runP p (a ++ b) = runP (runP p a) b := by
  intro n
  induction n with
  | zero =>
    intro a ha b p
    have hnil : a = [] := List.length_eq_zero.mp (Nat.le_zero.mp ha)
    subst hnil
    simp [outP_nil, runP_nil]
  | succ n ih =>
    intro a ha b p
    match a with
    | [] => simp [outP_nil, runP_nil]
    | x :: xs =>
      rcases hsp : splitLine (x :: xs) with ⟨chunk, o⟩
      cases o with
      | some rest =>
        have hlen : rest.length ≤ n := by
          have := splitLine_some_length _ _ _ hsp
          simp only [List.length_cons] at this ha
          omega
        have hab : splitLine (x :: (xs ++ b)) = (chunk, some (rest ++ b)) := by
          have := splitLine_append_some _ b _ _ hsp
          simpa using this
        obtain ⟨iho, ihr⟩ := ih rest hlen b (setNeeds (planP1 p))
        rw [List.cons_append, outP_cons_some _ _ _ _ _ hab, outP_cons_some _ _ _ _ _ hsp,
          runP_cons_some _ _ _ _ _ hab, runP_cons_some _ _ _ _ _ hsp]
        constructor
        · rw [iho]
          simp [List.append_assoc]
        · exact ihr
      | none =>
        have hchunk : chunk = x :: xs := (splitLine_none _ _ hsp).1
        rw [runP_cons_none _ _ _ _ hsp, outP_cons_none _ _ _ _ hsp]
        match b with
        | [] => simp [outP_cons_none _ _ _ _ hsp, runP_cons_none _ _ _ _ hsp, outP_nil, runP_nil]
        | y :: ys =>
          rcases hsb : splitLine (y :: ys) with ⟨cb, ob⟩
          have hab : splitLine (x :: (xs ++ y :: ys)) = (chunk ++ cb, ob) := by
            have := splitLine_append_none _ (y :: ys) _ hsp
            rw [hsb] at this
            simpa using this
          cases ob with
          | some rb =>
            rw [List.cons_append, outP_cons_some _ _ _ _ _ hab,
              runP_cons_some _ _ _ _ _ hab, outP_cons_some _ _ _ _ _ hsb,
              runP_cons_some _ _ _ _ _ hsb, preBytes_planP1,
              planP1_of_needs_false _ (planP1_needs p)]
            constructor
            · simp [List.append_assoc]
            · rfl
          | none =>
            rw [List.cons_append, outP_cons_none _ _ _ _ hab,
              runP_cons_none _ _ _ _ hab, outP_cons_none _ _ _ _ hsb,
              runP_cons_none _ _ _ _ hsb, preBytes_planP1,
              planP1_of_needs_false _ (planP1_needs p)]
            constructor
            · simp [List.append_assoc]
            · rfl

theorem outP_append (a b : List Byte) (p : Prefixer) :
    outP p (a ++ b) = outP p a ++ outP (runP p a) b :=
  (plan_append a.length a le_rfl b p).1

theorem runP_append (a b : List Byte) (p : Prefixer) :
    runP p (a ++ b) = runP (runP p a) b :=
  (plan_append a.length a le_rfl b p).2

/-! ### Successful writes and write sequences -/

theorem writeP_okSink (ε : Type) (p : Prefixer) (st : SinkState) (buf : List Byte) :
    writeP (okSink ε) p st buf =
      (.ok buf.length, runP p buf, ⟨st.calls + (plan p buf).1.length, st.out ++ outP p buf⟩) := by
  match buf with
  | [] =>
    simp [writeP, plan_nil, runP_nil, outP_nil]
  | b :: bs =>
    rw [writeP]
    simp only [List.isEmpty_cons, Bool.false_eq_true, if_false]
    rw [writeLoop_okSink ε (b :: bs).length (b :: bs) le_rfl p st]

theorem writeMany_okSink (ε : Type) :
    ∀ (cs : List (List Byte)) (p : Prefixer) (st : SinkState),
    (writeMany (okSink ε) p st cs).1 = .ok () ∧
    (writeMany (okSink ε) p st cs).2.1 = runP p cs.flatten ∧
    ((writeMany (okSink ε) p st cs).2.2).out = st.out ++ outP p cs.flatten := by
  intro cs
  induction cs with
  | nil => intro p st; simp [writeMany, runP_nil, outP_nil]
  | cons c cs ih =>
    intro p st
    rw [writeMany, writeP_okSink]
    obtain ⟨ih1, ih2, ih3⟩ := ih (runP p c) ⟨st.calls + (plan p c).1.length, st.out ++ outP p c⟩
    simp only [List.flatten_cons]
    refine ⟨ih1, ?_, ?_⟩
    · rw [ih2, runP_append]
    · rw [ih3]
      simp [outP_append, List.append_assoc]

/-! ### The reference rendering: every line gets exactly one prefix.

`linesOfB` decomposes a byte string into its lines, each line carrying its
terminator, the final line possibly unterminated; a trailing terminator
opens no empty line.  `renderLinesB` is the rendering the spec describes:
each line prefixed, the first with `first_line_prefix`, subsequent ones
with `next_line_prefix`, terminators untouched. -/

def linesOfB : List Byte → List (List Byte)
  | [] => []
  | b :: rest =>
    if b = NL then [NL] :: linesOfB rest
    else
      match linesOfB rest with
      | [] => [[b]]
      | l :: ls => (b :: l) :: ls

def renderLinesB (fp np : List Byte) : List (List Byte) → List Byte
  | [] => []
  | l :: ls => fp ++ l ++ renderLinesB np np ls

theorem linesOfB_some : ∀ (l c r : List Byte), splitLine l = (c, some r) →
    linesOfB l = c :: linesOfB r := by
  intro l
  induction l with
  | nil => intro c r h; simp [splitLine] at h
  | cons b bs ih =>
    intro c r h
    rcases hsp : splitLine bs with ⟨c', o⟩
    rw [splitLine, hsp] at h
    by_cases hb : b = NL
    · rw [if_pos hb] at h
      obtain ⟨h1, h2⟩ := Prod.mk.injEq .. ▸ h
      obtain rfl : bs = r := Option.some.inj h2
      rw [linesOfB, if_pos hb, ← h1]
    · rw [if_neg hb] at h
      obtain ⟨h1, h2⟩ := Prod.mk.injEq .. ▸ h
      simp only at h1 h2
      subst h2
      have hrec := ih c' r hsp
      rw [linesOfB, if_neg hb, hrec, ← h1]

theorem linesOfB_none : ∀ (l c : List Byte), l ≠ [] → splitLine l = (c, none) →
    linesOfB l = [c] := by
  intro l
  induction l with
  | nil => intro c hne h; exact absurd rfl hne
  | cons b bs ih =>
    intro c hne h
    rcases hsp : splitLine bs with ⟨c', o⟩
    rw [splitLine, hsp] at h
    by_cases hb : b = NL
    · rw [if_pos hb] at h
      obtain ⟨h1, h2⟩ := Prod.mk.injEq .. ▸ h
      exact absurd h2 (by simp)
    · rw [if_neg hb] at h
      obtain ⟨h1, h2⟩ := Prod.mk.injEq .. ▸ h
      simp only at h1 h2
      subst h2
      match bs, hsp with
      | [], hsp =>
        rw [splitLine] at hsp
        obtain ⟨hc1, _⟩ := Prod.mk.injEq .. ▸ hsp
        rw [linesOfB]
        rw [if_neg hb, linesOfB]
        rw [← h1, ← hc1]
      | b' :: bs', hsp =>
        have hrec := ih c' (by simp) hsp
        rw [linesOfB, if_neg hb, hrec, ← h1]

theorem planP1_of_needs_true (p : Prefixer) (h : p.needs_pref = true) :
    planP1 p = clearFlags p := by
  simp [planP1, h]

theorem preBytes_of_needs_true (p : Prefixer) (h : p.needs_pref = true) :
    preBytes p = prefOf p := by
  simp [preBytes, h]

theorem outP_fresh : ∀ (n : Nat) (s : List Byte), s.length ≤ n →
    ∀ (p : Prefixer), p.needs_pref = true →
    outP p s = renderLinesB (prefOf p) p.next_line_pref (linesOfB s) := by
  intro n
  induction n with
  | zero =>
    intro s hs p hp
    have hnil : s = [] := List.length_eq_zero.mp (Nat.le_zero.mp hs)
    subst hnil
    simp [outP_nil, linesOfB, renderLinesB]
  | succ n ih =>
    intro s hs p hp
    match s with
    | [] => simp [outP_nil, linesOfB, renderLinesB]
    | b :: bs =>
      rcases hsp : splitLine (b :: bs) with ⟨chunk, o⟩
      cases o with
      | some rest =>
        have hlen : rest.length ≤ n := by
          have := splitLine_some_length _ _ _ hsp
          simp only [List.length_cons] at this hs
          omega
        rw [outP_cons_some _ _ _ _ _ hsp, linesOfB_some _ _ _ hsp, renderLinesB,
          preBytes_of_needs_true _ hp, planP1_of_needs_true _ hp,
          ih rest hlen (setNeeds (clearFlags p)) rfl]
        simp [setNeeds, clearFlags, prefOf, List.append_assoc]
      | none =>
        rw [outP_cons_none _ _ _ _ hsp, linesOfB_none _ _ (by simp) hsp, renderLinesB,
          renderLinesB, preBytes_of_needs_true _ hp]
        simp

/-- C1: the line-prefixing writer is chunk-invariant.  Feeding the byte
string `chunks.flatten` to a fresh `Prefixer` in one `write` call and
feeding the chunks one `write` call at a time to another fresh `Prefixer`
with the same prefixes produce byte-identical output on the underlying
sink (a sink that accepts every write), for every initial sink state and
every way of splitting the string into consecutive chunks. -/
theorem prefixer_chunk_invariant (ε : Type) (fp np : List Byte) (chunks : List (List Byte))
    (st : SinkState) :
    ((writeMany (okSink ε) (Prefixer.new fp np) st chunks).2.2).out =
      ((writeP (okSink ε) (Prefixer.new fp np) st chunks.flatten).2.2).out := by
  rw [writeP_okSink]
  exact (writeMany_okSink ε chunks (Prefixer.new fp np) st).2.2

/-- C2: across any sequence of `write` calls to a fresh `Prefixer`, the
bytes reaching the sink are exactly the lines of the input with every line
terminator passed through unchanged and exactly one prefix inserted per
line, immediately before the line content (so a line consisting of only a
terminator gets its prefix right before the terminator); the first line
gets `first_line_prefix`, every later line `next_line_prefix`. -/
theorem prefixer_output_prefixes_every_line (ε : Type) (fp np : List Byte)
    (chunks : List (List Byte)) (st : SinkState) :
    ((writeMany (okSink ε) (Prefixer.new fp np) st chunks).2.2).out =
      st.out ++ renderLinesB fp np (linesOfB chunks.flatten) := by
  rw [(writeMany_okSink ε chunks (Prefixer.new fp np) st).2.2,
    outP_fresh chunks.flatten.length chunks.flatten le_rfl _ rfl]
  simp [prefOf, Prefixer.new]

/-! ### A failing sink aborts the write at the failing call -/

/-- The `Prefixer` state immediately before the `k`-th `write_all` call of
a `write` with buffer `buf` (out-of-range indices return `p` itself). -/
def callStateAt (p : Prefixer) (buf : List Byte) (k : Nat) : Prefixer :=
  ((plan p buf).1.getD k (Prefixer.new [] [], [])).1

/-- The bytes the sink has received from the first `k` `write_all` calls of
a `write` with buffer `buf`. -/
def sentBefore (p : Prefixer) (buf : List Byte) (k : Nat) : List Byte :=
  (((plan p buf).1.map (fun x => x.2)).take k).flatten

theorem writeLoop_fail (ε : Type) (s : Sink ε) :
    ∀ (n : Nat) (buf : List Byte), buf.length ≤ n →
    ∀ (p : Prefixer) (st : SinkState) (k : Nat) (e : ε),
    k < (plan p buf).1.length →
    (∀ i, i < k → s.err (st.calls + i) = none) →
    s.err (st.calls + k) = some e →
    writeLoop s p st buf =
      (.error e, callStateAt p buf k, ⟨st.calls + k, st.out ++ sentBefore p buf k⟩) := by
  intro n
  induction n with
  | zero =>
    intro buf hb p st k e hk hpre he
    have hnil : buf = [] := List.length_eq_zero.mp (Nat.le_zero.mp hb)
    subst hnil
    rw [plan_nil] at hk
    exact absurd hk (by simp)
  | succ n ih =>
    intro buf hb p st k e hk hpre he
    match buf with
    | [] =>
      rw [plan_nil] at hk
      exact absurd hk (by simp)
    | b :: bs =>
      rcases hsp : splitLine (b :: bs) with ⟨chunk, o⟩
      by_cases hnp : p.needs_pref
      · -- the prefix call is call 0
        cases o with
        | some rest =>
          rw [writeLoop_cons_some _ _ _ _ _ _ _ hsp]
          simp only [plan_cons_some _ _ _ _ _ hsp, planPre, planP1, hnp, if_true] at hk
          simp only [callStateAt, sentBefore, plan_cons_some _ _ _ _ _ hsp, planPre,
            planP1, hnp, if_true]
          match k with
          | 0 =>
            have he0 : s.err st.calls = some e := by simpa using he
            simp only [writePre, hnp, if_true, writeAll, he0]
            simp
          | 1 =>
            have h0 : s.err st.calls = none := by simpa using hpre 0 (by omega)
            have he1 : s.err (st.calls + 1) = some e := by simpa using he
            simp only [writePre, hnp, if_true, writeAll, h0, he1]
            simp
          | (j + 2) =>
            have h0 : s.err st.calls = none := by simpa using hpre 0 (by omega)
            have h1 : s.err (st.calls + 1) = none := hpre 1 (by omega)
            simp only [writePre, hnp, if_true, writeAll, h0, h1]
            have hlen : rest.length ≤ n := by
              have := splitLine_some_length _ _ _ hsp
              simp only [List.length_cons] at this hb
              omega
            have hk' : j < (plan (setNeeds (clearFlags p)) rest).1.length := by
              simp only [List.length_append, List.length_cons, List.length_singleton,
                List.length_nil] at hk
              omega
            have hpre' : ∀ i, i < j → s.err (st.calls + 1 + 1 + i) = none := by
              intro i hi
              have hp2 := hpre (i + 2) (by omega)
              have harith : st.calls + (i + 2) = st.calls + 1 + 1 + i := by omega
              rwa [harith] at hp2
            have he' : s.err (st.calls + 1 + 1 + j) = some e := by
              have harith : st.calls + (j + 2) = st.calls + 1 + 1 + j := by omega
              rwa [harith] at he
            rw [ih rest hlen (setNeeds (clearFlags p))
              ⟨st.calls + 1 + 1, st.out ++ prefOf p ++ chunk⟩ j e hk' hpre' he']
            simp only [callStateAt, sentBefore, Prod.mk.injEq, SinkState.mk.injEq,
              List.map_append, List.map_cons, List.map_nil, List.take_succ_cons,
              List.flatten_cons, List.nil_append, List.singleton_append,
              List.getD_cons_succ, List.append_assoc]
            all_goals and_intros
            all_goals first | rfl | trivial | omega | simp [List.append_assoc]
        | none =>
          rw [writeLoop_cons_none _ _ _ _ _ _ hsp]
          simp only [plan_cons_none _ _ _ _ hsp, planPre, planP1, hnp, if_true] at hk
          simp only [callStateAt, sentBefore, plan_cons_none _ _ _ _ hsp, planPre,
            planP1, hnp, if_true]
          match k with
          | 0 =>
            have he0 : s.err st.calls = some e := by simpa using he
            simp only [writePre, hnp, if_true, writeAll, he0]
            simp
          | 1 =>
            have h0 : s.err st.calls = none := by simpa using hpre 0 (by omega)
            have he1 : s.err (st.calls + 1) = some e := by simpa using he
            simp only [writePre, hnp, if_true, writeAll, h0, he1]
            simp
          | (j + 2) =>
            refine absurd hk ?_
            simp
      · -- no prefix call: the content call is call 0
        have hnp' : p.needs_pref = false := by simpa using hnp
        cases o with
        | some rest =>
          rw [writeLoop_cons_some _ _ _ _ _ _ _ hsp]
          simp only [plan_cons_some _ _ _ _ _ hsp, planPre, planP1, hnp', if_false,
            Bool.false_eq_true, List.nil_append] at hk
          simp only [callStateAt, sentBefore, plan_cons_some _ _ _ _ _ hsp, planPre,
            planP1, hnp', if_false, Bool.false_eq_true, List.nil_append]
          match k with
          | 0 =>
            have he0 : s.err st.calls = some e := by simpa using he
            simp only [writePre, hnp', if_false, Bool.false_eq_true, writeAll, he0]
            simp
          | (j + 1) =>
            have h0 : s.err st.calls = none := by simpa using hpre 0 (by omega)
            simp only [writePre, hnp', if_false, Bool.false_eq_true, writeAll, h0]
            have hlen : rest.length ≤ n := by
              have := splitLine_some_length _ _ _ hsp
              simp only [List.length_cons] at this hb
              omega
            have hk' : j < (plan (setNeeds p) rest).1.length := by
              simp only [List.length_cons] at hk
              omega
            have hpre' : ∀ i, i < j → s.err (st.calls + 1 + i) = none := by
              intro i hi
              have hp1 := hpre (i + 1) (by omega)
              have harith : st.calls + (i + 1) = st.calls + 1 + i := by omega
              rwa [harith] at hp1
            have he' : s.err (st.calls + 1 + j) = some e := by
              have harith : st.calls + (j + 1) = st.calls + 1 + j := by omega
              rwa [harith] at he
            rw [ih rest hlen (setNeeds p) ⟨st.calls + 1, st.out ++ chunk⟩ j e hk' hpre' he']
            simp only [callStateAt, sentBefore, Prod.mk.injEq, SinkState.mk.injEq,
              List.map_cons, List.take_succ_cons, List.flatten_cons,
              List.getD_cons_succ, List.append_assoc]
            all_goals and_intros
            all_goals first | rfl | trivial | omega | simp [List.append_assoc]
        | none =>
          rw [writeLoop_cons_none _ _ _ _ _ _ hsp]
          simp only [plan_cons_none _ _ _ _ hsp, planPre, planP1, hnp', if_false,
            Bool.false_eq_true, List.nil_append] at hk
          simp only [callStateAt, sentBefore, plan_cons_none _ _ _ _ hsp, planPre,
            planP1, hnp', if_false, Bool.false_eq_true, List.nil_append]
          match k with
          | 0 =>
            have he0 : s.err st.calls = some e := by simpa using he
            simp only [writePre, hnp', if_false, Bool.false_eq_true, writeAll, he0]
            simp
          | (j + 1) =>
            refine absurd hk ?_
            simp

/-- C7: when the underlying sink fails during a `write` call, the error is
propagated to the caller unchanged, the write is aborted — the sink has
received exactly the `write_all` chunks that preceded the failing call and
nothing after it — and the `Prefixer` flag state is exactly as it stood
immediately before the failing underlying write.  The pure `plan` lists,
in order, the `write_all` calls of the `write` together with the
`Prefixer` state right before each call; the hypotheses say the sink
accepts the first `k` calls and fails the `k`-th call with error `e`. -/
theorem prefixer_write_sink_failure (ε : Type) (s : Sink ε) (p : Prefixer) (st : SinkState)
    (buf : List Byte) (k : Nat) (e : ε) (hk : k < (plan p buf).1.length)
    (hpre : ∀ i, i < k → s.err (st.calls + i) = none)
    (he : s.err (st.calls + k) = some e) :
    writeP s p st buf =
      (.error e, callStateAt p buf k, ⟨st.calls + k, st.out ++ sentBefore p buf k⟩) := by
  match buf with
  | [] =>
    rw [plan_nil] at hk
    exact absurd hk (by simp)
  | b :: bs =>
    rw [writeP]
    simp only [List.isEmpty_cons, Bool.false_eq_true, if_false]
    rw [writeLoop_fail ε s (b :: bs).length (b :: bs) le_rfl p st k e hk hpre he]

/-- Witness for C7 at a concrete input: prefixes `"* "`/`"+ "`, buffer
`"A"`, a sink that fails its first call with error `37`.  The failing call
is the prefix write (call `0`), so the returned state is the untouched
fresh `Prefixer` and the sink received nothing. -/
theorem prefixer_write_sink_failure_witness :
    writeP ⟨fun i => if i = 0 then some 37 else none⟩ (Prefixer.new [42, 32] [43, 32])
        ⟨0, []⟩ [65] =
      (.error 37, Prefixer.new [42, 32] [43, 32], ⟨0, []⟩) := by
  have hsp : splitLine [65] = ([65], none) := by decide
  have hk : 0 < (plan (Prefixer.new [42, 32] [43, 32]) [65]).1.length := by
    rw [plan_cons_none _ _ _ _ hsp]
    decide
  rw [prefixer_write_sink_failure Nat ⟨fun i => if i = 0 then some 37 else none⟩
    (Prefixer.new [42, 32] [43, 32]) ⟨0, []⟩ [65] 0 37 hk
    (fun i hi => absurd hi (Nat.not_lt_zero i)) (by decide)]
  simp only [callStateAt, sentBefore, plan_cons_none _ _ _ _ hsp]
  rfl

/-- C8: an empty `write` call returns `Ok(0)`, leaves the whole `Prefixer`
state unchanged and sends nothing to the sink (the sink state, including
its output, is untouched) — for every sink, even a failing one. -/
theorem prefixer_empty_write_noop (ε : Type) (s : Sink ε) (p : Prefixer) (st : SinkState) :
    writeP s p st [] = (.ok 0, p, st) := rfl

/-! ## `partition_result` (src/functions/partition_result.rs)

Rust `Result<T, E>` is modelled by `Except E T`; the iterator argument by a
list.  The fold mirrors the source: `Ok` values are collected only while no
error has been seen; the first error drops the collected values; every
error is collected in order. -/

/-- One step of the `fold` in `partition_result`: collect an `Ok` only
while no error has been seen; the first error drops the collected `Ok`s. -/
def partStep : (List T × List E) → Except E T → (List T × List E) :=
  fun acc r =>
    match r with
    | .ok value => if acc.2.isEmpty then (acc.1 ++ [value], acc.2) else acc
    | .error e => ((if acc.2.isEmpty then [] else acc.1), acc.2 ++ [e])

def partition_result (results : List (Except E T)) : Except (List E) (List T) :=
  let acc := results.foldl partStep ([], [])
  if acc.2.isEmpty then .ok acc.1 else .error acc.2

/-- The `Ok` payloads of a result list, in input order. -/
def okParts (rs : List (Except E T)) : List T :=
  rs.filterMap (fun r => match r with | .ok v => some v | .error _ => none)

/-- The `Err` payloads of a result list, in input order. -/
def errParts (rs : List (Except E T)) : List E :=
  rs.filterMap (fun r => match r with | .ok _ => none | .error e => some e)

/-- Whether a result is `Ok`. -/
def exceptIsOk : Except E T → Bool
  | .ok _ => true
  | .error _ => false

theorem partition_fold_err (E T : Type) :
    ∀ (rs : List (Except E T)) (oks : List T) (errors : List E), errors ≠ [] →
    rs.foldl partStep (oks, errors) = (oks, errors ++ errParts rs) := by
  intro rs
  induction rs with
  | nil => intro oks errors hne; simp [errParts]
  | cons r rest ih =>
    intro oks errors hne
    have hemp : errors.isEmpty = false := by
      cases errors with
      | nil => exact absurd rfl hne
      | cons x xs => rfl
    match r with
    | .ok v =>
      simp only [List.foldl_cons, partStep, hemp, Bool.false_eq_true, if_false]
      rw [ih oks errors hne]
      simp [errParts]
    | .error e =>
      simp only [List.foldl_cons, partStep, hemp, Bool.false_eq_true, if_false]
      rw [ih oks (errors ++ [e]) (by simp)]
      simp [errParts, List.append_assoc]

theorem partition_fold_start (E T : Type) :
    ∀ (rs : List (Except E T)) (oks : List T),
    rs.foldl partStep (oks, []) =
      if rs.all exceptIsOk then (oks ++ okParts rs, []) else ([], errParts rs) := by
  intro rs
  induction rs with
  | nil => intro oks; simp [okParts]
  | cons r rest ih =>
    intro oks
    match r with
    | .ok v =>
      simp only [List.foldl_cons, partStep, List.isEmpty_nil, if_true, List.all_cons,
        exceptIsOk, Bool.true_and]
      rw [ih (oks ++ [v])]
      by_cases hall : rest.all exceptIsOk
      · simp [hall, okParts, errParts, List.append_assoc]
      · simp only [hall, Bool.false_eq_true, if_false]
        simp [errParts]
    | .error e =>
      simp only [List.foldl_cons, partStep, List.isEmpty_nil, if_true, List.all_cons,
        exceptIsOk, Bool.false_and, Bool.false_eq_true, if_false, List.nil_append]
      rw [partition_fold_err E T rest [] [e] (by simp)]
      simp [errParts]

/-- C10: `partition_result` returns `Ok` with all the `Ok` values in input
order exactly when every element is `Ok`; otherwise it returns `Err` with
all the error values in input order and every `Ok` value discarded. -/
theorem partition_result_spec (E T : Type) (rs : List (Except E T)) :
    partition_result rs =
      if rs.all exceptIsOk then .ok (okParts rs) else .error (errParts rs) := by
  simp only [partition_result]
  rw [partition_fold_start E T rs []]
  by_cases hall : rs.all exceptIsOk
  · simp [hall]
  · simp only [hall, Bool.false_eq_true, if_false]
    have : (errParts rs).isEmpty = false := by
      rw [List.all_eq_true] at hall
      push_neg at hall
      obtain ⟨r, hmem, hr⟩ := hall
      match r, hr with
      | .error e, _ =>
        have : e ∈ errParts rs := by
          simp [errParts, List.mem_filterMap]
          exact ⟨.error e, hmem, rfl⟩
        cases herr : errParts rs with
        | nil => rw [herr] at this; simp at this
        | cons x xs => rfl
      | .ok v, hr => simp [exceptIsOk] at hr
    simp [this]

/-! ## The outcome mappers (src/functions/exit_result.rs)

`ExitCode` models `std::process::ExitCode` restricted to the two values the
source produces.  Each mapper returns, besides the exit signal, the error
it reported through `eprintln_error` (if any) and the number of elements it
pulled from the iterator/stream, so that short-circuiting is observable. -/

inductive ExitCode where
  | success
  | failure
deriving DecidableEq, Repr

/-- `exit_iterator_of_results_print_first`: the `for` loop returns
`ExitCode::FAILURE` at the first `Err`, reporting exactly that error;
otherwise `ExitCode::SUCCESS`. -/
def exit_iterator_of_results_print_first : List (Except ε Unit) → ExitCode × Option ε × Nat
  | [] => (.success, none, 0)
  | r :: rest =>
    match r with
    | .error e => (.failure, some e, 1)
    | .ok _ =>
      let t := exit_iterator_of_results_print_first rest
      (t.1, t.2.1, t.2.2 + 1)

/-- `exit_stream_of_results_print_first`: the body is a single
`if let Some(Err(error)) = stream.next().await` — it polls the stream
exactly once and returns `ExitCode::SUCCESS` unless that first element is
an `Err`. -/
def exit_stream_of_results_print_first : List (Except ε Unit) → ExitCode × Option ε × Nat
  | [] => (.success, none, 0)
  | r :: _ =>
    match r with
    | .error e => (.failure, some e, 1)
    | .ok _ => (.success, none, 1)

/-- C5: on the sequence `[Ok, Err(5), Ok]` the iterator form stops at the
second element, reports `5` and returns the failure signal without
inspecting the third element (it pulls exactly `2` elements); but the
stream form inspects only the first element, reports nothing and returns
the success signal — contradicting its own doc comment ("printing a
detailed error trace on the first failure") and the claim. -/
theorem exit_forms_first_failure_eval :
    exit_iterator_of_results_print_first [Except.ok (), Except.error 5, Except.ok ()] =
        (.failure, some 5, 2) ∧
      exit_stream_of_results_print_first [Except.ok (), Except.error 5, Except.ok ()] =
        (.success, (none : Option Nat), 1) :=
  ⟨rfl, rfl⟩

/-! ## The error-trace formatter (src/functions/writeln_error.rs,
src/types/err_vec.rs, src/types/error_displayer.rs)

Formatter output is modelled as `List Char`.  An error value is modelled by
its observable interface — a `Display` message and an optional `source` —
as the tree `ErrE`: `leaf` (message, no source), `link` (message plus a
source), and `errVec` (an `ErrVec`, whose `Display` output is the
aggregate rendering and whose `source()` is `None`, the derived default of
`impl Error for ErrVec`). -/

def NLc : Char := '\n'

def CRc : Char := '\r'

inductive ErrE where
  | leaf (msg : List Char)
  | link (msg : List Char) (source : ErrE)
  | errVec (children : List ErrE)

/-! ### `str::lines` (used by `impl Display for ErrVec`)

Rust `str::lines` is `split_inclusive('\n')` with each piece stripped of a
trailing `'\n'` and then of a trailing `'\r'` (only when the `'\n'` was
present). -/

/-- `split_inclusive('\n')`: split after every newline, keeping the
terminator with its piece; no empty trailing piece. -/
def splitInclusiveNL : List Char → List (List Char)
  | [] => []
  | b :: rest =>
    if b = NLc then [NLc] :: splitInclusiveNL rest
    else
      match splitInclusiveNL rest with
      | [] => [[b]]
      | l :: ls => (b :: l) :: ls

/-- `strip_suffix(c)` on a char list. -/
def stripSuffixChar (c : Char) (l : List Char) : Option (List Char) :=
  if l.getLast? = some c then some l.dropLast else none

/-- The per-piece map of `str::lines`: strip a trailing `'\n'`, and if it
was there, also a trailing `'\r'`. -/
def lineMap (piece : List Char) : List Char :=
  match stripSuffixChar NLc piece with
  | some l =>
    match stripSuffixChar CRc l with
    | some l2 => l2
    | none => l
  | none => piece

def rust_lines (s : List Char) : List (List Char) :=
  (splitInclusiveNL s).map lineMap

/-! ### The renderers -/

/-- One decimal digit as a character (model of the digit rendering of
`usize` `Display`). -/
def digitChar (d : Nat) : Char :=
  if d = 0 then '0' else if d = 1 then '1' else if d = 2 then '2' else if d = 3 then '3'
  else if d = 4 then '4' else if d = 5 then '5' else if d = 6 then '6' else if d = 7 then '7'
  else if d = 8 then '8' else '9'

/-- Decimal digits of `n`, most significant first (model of `usize`
`Display` in `format!`/`writeln!`); the first argument is fuel, always
sufficient at `n + 1`. -/
def natCharsAux : Nat → Nat → List Char
  | 0, _ => []
  | fuel + 1, n =>
    if n < 10 then [digitChar n]
    else natCharsAux fuel (n / 10) ++ [digitChar (n % 10)]

def natChars (n : Nat) : List Char :=
  natCharsAux (n + 1) n

/-- The header text (without terminator) of
`writeln!(f, "encountered {len} errors", len = self.len())`. -/
def headerBody (k : Nat) : List Char :=
  "encountered ".data ++ natChars k ++ " errors".data

/-- The full header line written by `impl Display for ErrVec`. -/
def headerOf (k : Nat) : List Char :=
  headerBody k ++ [NLc]

/-- The bullet prefix `"  * "` of `writeln!(f, "  * {first_line}")`. -/
def bulletPre : List Char := [' ', ' ', '*', ' ']

/-- The continuation prefix `"    "` of `writeln!(f, "    {line}")`. -/
def continPre : List Char := [' ', ' ', ' ', ' ']

/-- The text `impl Display for ErrVec` writes for one child, given the
child's `RecursiveDisplayer` rendering `s`: nothing when `s.lines()` is
empty, else the first line bulleted, the remaining lines
continuation-indented, then a blank line (`writeln!(f)`). -/
def blockOf (s : List Char) : List Char :=
  match rust_lines s with
  | [] => []
  | first :: rest =>
    (bulletPre ++ first ++ [NLc]) ++
      (rest.map (fun l => continPre ++ l ++ [NLc])).flatten ++ [NLc]

mutual

/-- Modelled from the spec: the rendering of `RecursiveDisplayer`
(src/types/err_vec.rs line 43) calls a three-argument
`writeln_error_to_formatter(error, is_nested, f)` that is absent from the
sources — only a two-argument variant exists in
src/functions/writeln_error.rs.  Per the spec (§4.2), a chain renders as
consecutive lines, one message per link, with no bullet markers (bullets
are added by the aggregate layer); so this models the nested renderer as
the `Display` of each link joined by line separators, recursing through
`source()`. -/
def recursive_display : ErrE → List Char
  | .leaf m => m
  | .link m s => m ++ NLc :: recursive_display s
  | .errVec cs => headerOf cs.length ++ childBlocks cs

/-- The `try_for_each` over `self.inner` in `impl Display for ErrVec`
(src/types/err_vec.rs lines 18-31). -/
def childBlocks : List ErrE → List Char
  | [] => []
  | c :: rest => blockOf (recursive_display c) ++ childBlocks rest

end

/-- `writeln_error_to_formatter` (src/functions/writeln_error.rs lines
95-104): `write!(f, "- {error}")`, then if `source()` is `Some`, a newline
and recursion.  The `Display` of an `ErrVec` is its aggregate rendering;
its `source()` is `None`. -/
def writeln_error_to_formatter : ErrE → List Char
  | .leaf m => '-' :: ' ' :: m
  | .link m s => ('-' :: ' ' :: m) ++ NLc :: writeln_error_to_formatter s
  | .errVec cs => '-' :: ' ' :: (headerOf cs.length ++ childBlocks cs)

/-- `impl Display for ErrVec` (src/types/err_vec.rs lines 15-34). -/
def errVecFmt (cs : List ErrE) : List Char :=
  headerOf cs.length ++ childBlocks cs

/-- `ErrVec` itself (src/types/err_vec.rs): a plain owned collection. -/
structure ErrVecS (E : Type) where
  inner : List E

/-- `ErrVec::new`: collect the iterator; total by construction. -/
def ErrVecS.new (iter : List E) : ErrVecS E := ⟨iter⟩

/-- The `Display` of an `ErrVec` over modelled errors. -/
def ErrVecS.display (v : ErrVecS ErrE) : List Char :=
  errVecFmt v.inner

/-- A causal chain with messages `m :: ms`, no aggregate anywhere. -/
def chainOf : List Char → List (List Char) → ErrE
  | m, [] => .leaf m
  | m, m2 :: ms => .link m (chainOf m2 ms)

/-! ### Line decomposition of rendered output.

`linesNL` splits a char string at `'\n'` terminators into the line
contents (terminators dropped, a trailing terminator opening no extra
line): the plain notion of "lines" the claims speak about. -/

def linesNL : List Char → List (List Char)
  | [] => []
  | b :: rest =>
    if b = NLc then [] :: linesNL rest
    else
      match linesNL rest with
      | [] => [[b]]
      | l :: ls => (b :: l) :: ls

theorem linesNL_append_NL : ∀ (a y : List Char), NLc ∉ a →
    linesNL (a ++ NLc :: y) = a :: linesNL y := by
  intro a
  induction a with
  | nil => intro y hmem; simp [linesNL]
  | cons x a' ih =>
    intro y hmem
    have hx : x ≠ NLc := fun hx => hmem (by simp [hx])
    have ha' : NLc ∉ a' := fun hm => hmem (by simp [hm])
    rw [List.cons_append, linesNL, if_neg hx, ih y ha']

theorem linesNL_noNL : ∀ (a : List Char), NLc ∉ a → a ≠ [] → linesNL a = [a] := by
  intro a
  induction a with
  | nil => intro _ hne; exact absurd rfl hne
  | cons x a' ih =>
    intro hmem hne
    have hx : x ≠ NLc := fun hx => hmem (by simp [hx])
    have ha' : NLc ∉ a' := fun hm => hmem (by simp [hm])
    rw [linesNL, if_neg hx]
    match a', ha' with
    | [], _ => rfl
    | y :: a'', ha' => rw [ih ha' (by simp)]

/-! ### Facts about `rust_lines` -/

theorem splitInclusiveNL_mem : ∀ (s piece : List Char), piece ∈ splitInclusiveNL s →
    (∃ c', piece = c' ++ [NLc] ∧ NLc ∉ c') ∨ NLc ∉ piece := by
  intro s
  induction s with
  | nil => intro piece h; simp [splitInclusiveNL] at h
  | cons b bs ih =>
    intro piece h
    by_cases hb : b = NLc
    · rw [splitInclusiveNL, if_pos hb] at h
      rcases List.mem_cons.mp h with h | h
      · exact Or.inl ⟨[], by simp [h], by simp⟩
      · exact ih piece h
    · rw [splitInclusiveNL, if_neg hb] at h
      cases hsp : splitInclusiveNL bs with
      | nil =>
        rw [hsp] at h
        rcases List.mem_cons.mp h with h | h
        · refine Or.inr ?_
          rw [h]
          simp [hb]
          intro hc
          exact hb hc.symm
        · simp at h
      | cons l ls =>
        rw [hsp] at h
        rcases List.mem_cons.mp h with h | h
        · rcases ih l (by rw [hsp]; exact List.mem_cons_self l ls) with ⟨c', hc1, hc2⟩ | hnl
          · refine Or.inl ⟨b :: c', ?_, ?_⟩
            · rw [h, hc1]; rfl
            · intro hm
              rcases List.mem_cons.mp hm with hm | hm
              · exact hb hm.symm
              · exact hc2 hm
          · refine Or.inr ?_
            rw [h]
            intro hm
            rcases List.mem_cons.mp hm with hm | hm
            · exact hb hm.symm
            · exact hnl hm
        · exact ih piece (by rw [hsp]; exact List.mem_cons_of_mem l h)

theorem stripSuffixChar_eq_some (c : Char) (y z : List Char)
    (h : stripSuffixChar c y = some z) : z = y.dropLast := by
  rw [stripSuffixChar] at h
  split at h
  · exact (Option.some.inj h).symm
  · exact absurd h (by simp)

theorem lineMap_subset (piece : List Char) (x : Char) (h : x ∈ lineMap piece) : x ∈ piece := by
  rw [lineMap] at h
  split at h
  · rename_i l h1
    have hl := stripSuffixChar_eq_some _ _ _ h1
    split at h
    · rename_i l2 h2
      have hl2 := stripSuffixChar_eq_some _ _ _ h2
      subst hl2
      subst hl
      exact List.mem_of_mem_dropLast (List.mem_of_mem_dropLast h)
    · subst hl
      exact List.mem_of_mem_dropLast h
  · exact h

theorem stripSuffixChar_concat (c : Char) (l : List Char) :
    stripSuffixChar c (l ++ [c]) = some l := by
  rw [stripSuffixChar]
  have h1 : (l ++ [c]).getLast? = some c := by simp
  have h2 : (l ++ [c]).dropLast = l := by simp
  rw [h1, if_pos rfl, h2]

theorem lineMap_noNL (piece : List Char)
    (hsh : (∃ c', piece = c' ++ [NLc] ∧ NLc ∉ c') ∨ NLc ∉ piece) :
    NLc ∉ lineMap piece := by
  rcases hsh with ⟨c', hc1, hc2⟩ | hnl
  · subst hc1
    simp only [lineMap, stripSuffixChar_concat]
    split
    · rename_i l2 h2
      have hl2 := stripSuffixChar_eq_some _ _ _ h2
      subst hl2
      intro hm
      exact hc2 (List.mem_of_mem_dropLast hm)
    · exact hc2
  · intro hm
    exact hnl (lineMap_subset piece NLc hm)

theorem rust_lines_noNL (s : List Char) (l : List Char) (h : l ∈ rust_lines s) : NLc ∉ l := by
  rw [rust_lines, List.mem_map] at h
  obtain ⟨piece, hmem, hl⟩ := h
  rw [← hl]
  exact lineMap_noNL piece (splitInclusiveNL_mem s piece hmem)

theorem rust_lines_ne_nil (s : List Char) (h : s ≠ []) : rust_lines s ≠ [] := by
  match s with
  | b :: bs =>
    rw [rust_lines]
    by_cases hb : b = NLc
    · rw [splitInclusiveNL, if_pos hb]
      simp
    · rw [splitInclusiveNL, if_neg hb]
      cases hsp : splitInclusiveNL bs <;> simp

/-! ### Unfolding lemmas for the mutual renderers -/

theorem recursive_display_leaf (m : List Char) :
    recursive_display (.leaf m) = m := by
  rw [recursive_display]

theorem recursive_display_link (m : List Char) (src : ErrE) :
    recursive_display (.link m src) = m ++ NLc :: recursive_display src := by
  rw [recursive_display]

theorem recursive_display_errVec (cs : List ErrE) :
    recursive_display (.errVec cs) = errVecFmt cs := by
  rw [recursive_display, errVecFmt]

theorem childBlocks_nil : childBlocks [] = [] := by
  rw [childBlocks]

theorem childBlocks_cons (c : ErrE) (rest : List ErrE) :
    childBlocks (c :: rest) = blockOf (recursive_display c) ++ childBlocks rest := by
  rw [childBlocks]

theorem wef_leaf (m : List Char) :
    writeln_error_to_formatter (.leaf m) = '-' :: ' ' :: m := by
  rw [writeln_error_to_formatter]

theorem wef_link (m : List Char) (src : ErrE) :
    writeln_error_to_formatter (.link m src) =
      ('-' :: ' ' :: m) ++ NLc :: writeln_error_to_formatter src := by
  rw [writeln_error_to_formatter]

/-! ### No newline in the header -/

theorem digitChar_ne_NL (d : Nat) : digitChar d ≠ NLc := by
  rw [digitChar, NLc]
  repeat' split
  all_goals decide

theorem natCharsAux_noNL : ∀ (fuel n : Nat), NLc ∉ natCharsAux fuel n := by
  intro fuel
  induction fuel with
  | zero => intro n; simp [natCharsAux]
  | succ f ih =>
    intro n
    rw [natCharsAux]
    split
    · intro hm
      rw [List.mem_singleton] at hm
      exact digitChar_ne_NL n hm.symm
    · intro hm
      rcases List.mem_append.mp hm with hm | hm
      · exact ih (n / 10) hm
      · rw [List.mem_singleton] at hm
        exact digitChar_ne_NL (n % 10) hm.symm

theorem headerBody_noNL (k : Nat) : NLc ∉ headerBody k := by
  rw [headerBody]
  intro hm
  rcases List.mem_append.mp hm with hm | hm
  · rcases List.mem_append.mp hm with hm | hm
    · revert hm; decide
    · exact natCharsAux_noNL _ _ hm
  · revert hm; decide

/-! ### Line decomposition of the aggregate rendering -/

/-- The lines one child contributes to the `ErrVec` rendering: first line
bulleted, the rest continuation-indented, then a blank separator line;
nothing at all when the child renders to the empty string. -/
def blockLinesOf (c : ErrE) : List (List Char) :=
  match rust_lines (recursive_display c) with
  | [] => []
  | first :: rest => (bulletPre ++ first) :: rest.map (fun l => continPre ++ l) ++ [[]]

theorem blockLinesOf_leaf (m : List Char) :
    blockLinesOf (.leaf m) =
      match rust_lines m with
      | [] => []
      | first :: rest => (bulletPre ++ first) :: rest.map (fun l => continPre ++ l) ++ [[]] := by
  rw [blockLinesOf, recursive_display_leaf]

theorem linesNL_cons_NL (y : List Char) : linesNL (NLc :: y) = [] :: linesNL y := by
  rw [linesNL, if_pos rfl]

theorem linesNL_continLines :
    ∀ (ls : List (List Char)), (∀ l ∈ ls, NLc ∉ l) → ∀ (t : List Char),
    linesNL ((ls.map (fun l => continPre ++ l ++ [NLc])).flatten ++ t) =
      ls.map (fun l => continPre ++ l) ++ linesNL t := by
  intro ls
  induction ls with
  | nil => intro h t; simp
  | cons l ls ih =>
    intro h t
    have hnl : NLc ∉ continPre ++ l := by
      intro hm
      rcases List.mem_append.mp hm with hm | hm
      · revert hm; decide
      · exact h l (List.mem_cons_self l ls) hm
    simp only [List.map_cons, List.flatten_cons]
    have e1 : (continPre ++ l ++ [NLc]) ++
          ((ls.map (fun l => continPre ++ l ++ [NLc])).flatten ++ t) =
        (continPre ++ l) ++
          NLc :: ((ls.map (fun l => continPre ++ l ++ [NLc])).flatten ++ t) := by
      simp [List.append_assoc]
    rw [List.append_assoc, e1, linesNL_append_NL _ _ hnl,
      ih (fun x hx => h x (List.mem_cons_of_mem l hx)) t, List.cons_append]

theorem linesNL_block (c : ErrE) (hne : recursive_display c ≠ []) (t : List Char) :
    linesNL (blockOf (recursive_display c) ++ t) = blockLinesOf c ++ linesNL t := by
  rcases hrl : rust_lines (recursive_display c) with _ | ⟨f, ls⟩
  · exact absurd hrl (rust_lines_ne_nil _ hne)
  · have hf : NLc ∉ bulletPre ++ f := by
      intro hm
      rcases List.mem_append.mp hm with hm | hm
      · revert hm; decide
      · exact rust_lines_noNL _ f (by rw [hrl]; exact List.mem_cons_self f ls) hm
    have hls : ∀ l ∈ ls, NLc ∉ l := fun l hl =>
      rust_lines_noNL _ l (by rw [hrl]; exact List.mem_cons_of_mem f hl)
    simp only [blockOf, blockLinesOf, hrl]
    have e1 : ((bulletPre ++ f ++ [NLc]) ++
          (ls.map (fun l => continPre ++ l ++ [NLc])).flatten ++ [NLc]) ++ t =
        (bulletPre ++ f) ++
          NLc :: ((ls.map (fun l => continPre ++ l ++ [NLc])).flatten ++ (NLc :: t)) := by
      simp [List.append_assoc]
    rw [e1, linesNL_append_NL _ _ hf, linesNL_continLines ls hls (NLc :: t),
      linesNL_cons_NL]
    simp [List.append_assoc]

theorem childBlocks_linesNL :
    ∀ (cs : List ErrE), (∀ c ∈ cs, recursive_display c ≠ []) → ∀ (t : List Char),
    linesNL (childBlocks cs ++ t) = (cs.map blockLinesOf).flatten ++ linesNL t := by
  intro cs
  induction cs with
  | nil => intro h t; rw [childBlocks_nil]; simp
  | cons c rest ih =>
    intro h t
    rw [childBlocks_cons, List.append_assoc,
      linesNL_block c (h c (List.mem_cons_self c rest)) _,
      ih (fun x hx => h x (List.mem_cons_of_mem c hx)) t]
    simp [List.append_assoc]

/-- C4 (amended): for an `ErrVec` whose children each render to a
non-empty string, the rendered output decomposes, line by line, into the
header line followed by, for each child in input order, one bulleted
block: its first line preceded by the bullet prefix `"  * "`, its
subsequent lines preceded by the continuation prefix `"    "`, and a
blank line closing each block. -/
theorem err_vec_blocks (cs : List ErrE) (h : ∀ c ∈ cs, recursive_display c ≠ []) :
    linesNL (errVecFmt cs) = headerBody cs.length :: (cs.map blockLinesOf).flatten := by
  rw [errVecFmt, headerOf]
  have e1 : (headerBody cs.length ++ [NLc]) ++ childBlocks cs =
      headerBody cs.length ++ NLc :: (childBlocks cs ++ []) := by
    simp [List.append_assoc]
  rw [e1, linesNL_append_NL _ _ (headerBody_noNL cs.length),
    childBlocks_linesNL cs h []]
  simp [linesNL]

/-- Witness for C4 at the spec's scenario: the aggregate with leaf
children `X` and `Y` renders as the header `encountered 2 errors`, the
block line `  * X`, a blank line, the block line `  * Y`, a blank line. -/
theorem err_vec_blocks_witness :
    (∀ c ∈ [ErrE.leaf ['X'], ErrE.leaf ['Y']], recursive_display c ≠ []) ∧
      linesNL (errVecFmt [ErrE.leaf ['X'], ErrE.leaf ['Y']]) =
        ["encountered 2 errors".data,
          [' ', ' ', '*', ' ', 'X'], [],
          [' ', ' ', '*', ' ', 'Y'], []] := by
  have hhyp : ∀ c ∈ [ErrE.leaf ['X'], ErrE.leaf ['Y']], recursive_display c ≠ [] := by
    intro c hc
    rcases List.mem_cons.mp hc with rfl | hc
    · rw [recursive_display_leaf]; decide
    · rcases List.mem_cons.mp hc with rfl | hc
      · rw [recursive_display_leaf]; decide
      · simp at hc
  refine ⟨hhyp, ?_⟩
  rw [err_vec_blocks _ hhyp, List.map_cons, List.map_cons, List.map_nil,
    blockLinesOf_leaf, blockLinesOf_leaf]
  decide

/-- Counterexample for C4 as stated: the scenario aggregate renders with a
blank line after each bulleted block, so its lines are not exactly the
header followed immediately by `  * X` and `  * Y`. -/
theorem err_vec_scenario_counterexample :
    linesNL (errVecFmt [ErrE.leaf ['X'], ErrE.leaf ['Y']]) ≠
      ["encountered 2 errors".data,
        [' ', ' ', '*', ' ', 'X'],
        [' ', ' ', '*', ' ', 'Y']] := by
  rw [errVecFmt, childBlocks_cons, childBlocks_cons, childBlocks_nil,
    recursive_display_leaf, recursive_display_leaf]
  decide

/-- C3 (amended): a causal chain of depth `n` with no aggregate and
newline-free messages renders as exactly `n` lines, one per link in order,
each line being `"- "` followed by that link's message (the source writes
`write!(f, "- {error}")` per link). -/
theorem chain_render_lines :
    ∀ (ms : List (List Char)) (m0 : List Char), (∀ m ∈ m0 :: ms, NLc ∉ m) →
    linesNL (writeln_error_to_formatter (chainOf m0 ms)) =
      (m0 :: ms).map (fun m => '-' :: ' ' :: m) := by
  intro ms
  induction ms with
  | nil =>
    intro m0 h
    have hnl : NLc ∉ '-' :: ' ' :: m0 := by
      intro hm
      rcases List.mem_cons.mp hm with hm | hm
      · revert hm; decide
      · rcases List.mem_cons.mp hm with hm | hm
        · revert hm; decide
        · exact h m0 (List.mem_cons_self m0 []) hm
    rw [chainOf, wef_leaf, linesNL_noNL _ hnl (by simp)]
    rfl
  | cons m2 ms ih =>
    intro m0 h
    have hnl : NLc ∉ '-' :: ' ' :: m0 := by
      intro hm
      rcases List.mem_cons.mp hm with hm | hm
      · revert hm; decide
      · rcases List.mem_cons.mp hm with hm | hm
        · revert hm; decide
        · exact h m0 (List.mem_cons_self m0 (m2 :: ms)) hm
    rw [chainOf, wef_link, linesNL_append_NL _ _ hnl,
      ih m2 (fun m hm => h m (List.mem_cons_of_mem m0 hm)), List.map_cons]
    rfl

/-- Witness for C3 at the spec's scenario chain `A` caused by `B` caused
by `C`. -/
theorem chain_render_lines_witness :
    (∀ m ∈ [['A'], ['B'], ['C']], NLc ∉ m) ∧
      linesNL (writeln_error_to_formatter (chainOf ['A'] [['B'], ['C']])) =
        [['-', ' ', 'A'], ['-', ' ', 'B'], ['-', ' ', 'C']] := by
  refine ⟨by decide, ?_⟩
  rw [chain_render_lines [['B'], ['C']] ['A'] (by decide)]
  rfl

/-- Counterexample for C3 as stated: the chain `A` caused by `B` caused by
`C` renders its three lines with a `"- "` bullet marker before each
message, so the lines are not `A`, `B`, `C`. -/
theorem chain_render_scenario_counterexample :
    linesNL (writeln_error_to_formatter (chainOf ['A'] [['B'], ['C']])) =
        [['-', ' ', 'A'], ['-', ' ', 'B'], ['-', ' ', 'C']] ∧
      linesNL (writeln_error_to_formatter (chainOf ['A'] [['B'], ['C']])) ≠
        [['A'], ['B'], ['C']] := by
  rw [chainOf, chainOf, chainOf, wef_link, wef_link, wef_leaf]
  exact ⟨by decide, by decide⟩

/-- C9: building an aggregate never fails — `ErrVec::new` totally collects
any (empty included) list, and the rendering of an aggregate with an empty
child list is just its header message line with no child list. -/
theorem err_vec_empty_total (E : Type) (l : List E) :
    (ErrVecS.new l).inner = l ∧
      errVecFmt ([] : List ErrE) = "encountered 0 errors".data ++ [NLc] ∧
      linesNL (errVecFmt ([] : List ErrE)) = ["encountered 0 errors".data] := by
  refine ⟨rfl, ?_, ?_⟩
  · rw [errVecFmt, childBlocks_nil, List.append_nil]
    decide
  · rw [errVecFmt, childBlocks_nil, List.append_nil]
    decide

/-! ## The report sink (src/functions/writeln_error.rs lines 62-78)

`writeln_error_to_writer_and_file` writes the rendered error (`{error}`
modelled as opaque text) and a blank line to the primary writer, asks the
durable-persistence collaborator (`write_to_named_temp_file`, real file
I/O) to store the full debug dump, and then writes either the pointer line
`"See the full error report:\nless {path}"` or, when persisting failed,
the persistence failure's debug text — each `writeln!` one fallible call
on the primary writer, errors propagated with `?`.  The collaborator's
outcome is a parameter: `.ok path` or `.error dbg` (its `{:#?}` text). -/

structure WSt where
  calls : Nat
  out : List Char
deriving DecidableEq, Repr

def writeAllC (s : Sink ε) (st : WSt) (chunk : List Char) : Except ε WSt :=
  match s.err st.calls with
  | some e => .error e
  | none => .ok ⟨st.calls + 1, st.out ++ chunk⟩

def writeln_error_to_writer_and_file (s : Sink ε) (st : WSt)
    (errDisplay : List Char) (persist : Except (List Char) (List Char)) :
    Except ε Unit × WSt :=
  match writeAllC s st (errDisplay ++ [NLc]) with
  | .error e => (.error e, st)
  | .ok st1 =>
    match writeAllC s st1 [NLc] with
    | .error e => (.error e, st1)
    | .ok st2 =>
      match persist with
      | .ok path =>
        match writeAllC s st2
            ("See the full error report:".data ++ NLc :: ("less ".data ++ path ++ [NLc])) with
        | .error e => (.error e, st2)
        | .ok st3 => (.ok (), st3)
      | .error dbg =>
        match writeAllC s st2 (dbg ++ [NLc]) with
        | .error e => (.error e, st2)
        | .ok st3 => (.ok (), st3)

/-- C6: when persisting the full error detail fails, the report sink
writes the persistence failure's debug text to the primary destination in
place of the pointer line and still returns success — the persistence
failure is swallowed (first conjunct); with persistence succeeding it
writes the pointer line instead (second conjunct); and the sink's result
is an error exactly when a write to the primary destination itself fails,
the write error propagating unchanged (third conjunct). -/
theorem report_sink_swallow_persist_failure (ε : Type) (st : WSt)
    (errDisplay dbg path : List Char) :
    writeln_error_to_writer_and_file (okSink ε) st errDisplay (.error dbg) =
        (.ok (), ⟨st.calls + 3, st.out ++ (errDisplay ++ [NLc]) ++ [NLc] ++ (dbg ++ [NLc])⟩) ∧
      writeln_error_to_writer_and_file (okSink ε) st errDisplay (.ok path) =
        (.ok (), ⟨st.calls + 3, st.out ++ (errDisplay ++ [NLc]) ++ [NLc] ++
          ("See the full error report:".data ++ NLc :: ("less ".data ++ path ++ [NLc]))⟩) ∧
      ∀ e : ε, writeln_error_to_writer_and_file ⟨fun _ => some e⟩ st errDisplay (.error dbg) =
        (.error e, st) := by
  refine ⟨?_, ?_, fun e => rfl⟩ <;>
  · simp only [writeln_error_to_writer_and_file, writeAllC, okSink, Prod.mk.injEq,
      WSt.mk.injEq]
    all_goals and_intros
    all_goals first | rfl | omega | simp [List.append_assoc]

end ErrorHandling
